import Mathlib

/-!
Shallow embedding of the ECG preprocessing core of NeuroKit
(`neurokit/bio/bio_ecg_preprocessing.py` and `neurokit/signal/signal.py`).

Real-valued samples are modelled as rationals.  Python `int()` truncation,
negative-index slicing and the NumPy primitives used by the source
(`diff`, `argmax`, `median`, `std`, `max`, `convolve`, `flatnonzero`) are
embedded explicitly.  External SciPy routines (Butterworth `filtfilt`,
`gaussian_filter1d`, the cubic-spline pair `splrep`/`splev`) and the
irrational scalar functions `sqrt` and `log` are taken as parameters of
the definitions that call them, since their values are not defined by
this repository's code.
-/

/-- Python `int()` applied to a real number: truncation toward zero.
For the quantities appearing in the source (small integers divided by
powers of two) IEEE float arithmetic is exact, so the rational model is
faithful. -/
def pyInt (q : ℚ) : ℤ :=
  if q < 0 then ⌈q⌉ else ⌊q⌋

/-- Effective bound of a Python/NumPy slice index `i` for a sequence of
length `n`: negative indices count from the end, then the result is
clamped into `[0, n]`. -/
def sliceIdx (n : ℕ) (i : ℤ) : ℕ :=
  if i < 0 then ((n : ℤ) + i).toNat else min i.toNat n

/-- Python slice `l[i:j]` with int bounds (step 1), including the
negative-index and clamping semantics. -/
def npSlice {α : Type} (l : List α) (i j : ℤ) : List α :=
  let s := sliceIdx l.length i
  let e := sliceIdx l.length j
  (l.drop s).take (e - s)

/-- `np.diff`: first difference, `out[i] = l[i+1] - l[i]`. -/
def npDiff (l : List ℚ) : List ℚ :=
  List.zipWith (fun a b => b - a) l.dropLast l.tail

unseal Rat.add Rat.sub Rat.mul Rat.inv

/-- Index and value of the first maximum of a list (`np.argmax` returns
the first occurrence of the maximal value); `none` on the empty list,
where NumPy raises `ValueError`. -/
def argmaxAux : List ℚ → Option (ℕ × ℚ)
  | [] => none
  | x :: xs =>
    match argmaxAux xs with
    | none => some (0, x)
    | some (j, m) => if m > x then some (j + 1, m) else some (0, x)

/-- `np.argmax`: index of the first maximal element, `none` if empty. -/
def argmax? (l : List ℚ) : Option ℕ :=
  (argmaxAux l).map Prod.fst

/-- The consecutive pairs `(l[i], l[i+1])` of a list.  Both loops of
`ecg_wave_detector` (`enumerate(rpeaks[0:-1])` with `rpeaks[index+1]`,
and `enumerate(rpeaks[1:])` with `rpeaks[index-1]`) range over exactly
these pairs. -/
def adjPairs : List ℕ → List (ℕ × ℕ)
  | a :: b :: rest => (a, b) :: adjPairs (b :: rest)
  | _ => []

/-- Start of the T-wave search window: `int(rpeak + quarter)` where
`middle = (rpeaks[index+1] - rpeak)/2` and `quarter = middle/2`
(true division, then Python `int()`). -/
def twLo (a b : ℕ) : ℤ :=
  pyInt ((a : ℚ) + ((b : ℚ) - (a : ℚ)) / 2 / 2)

/-- End of the T-wave search window: `int(rpeak + middle)`. -/
def twHi (a b : ℕ) : ℤ :=
  pyInt ((a : ℚ) + ((b : ℚ) - (a : ℚ)) / 2)

/-- The in-signal positions of the T-wave search window of the pair
`(a, b)` for a signal of length `n`: the slice `[int(a+quarter),
int(a+middle))` intersected with the valid indices of the signal. -/
def twWin (n a b i : ℕ) : Prop :=
  twLo a b ≤ (i : ℤ) ∧ (i : ℤ) < twHi a b ∧ i < n

instance (n a b i : ℕ) : Decidable (twWin n a b i) := by
  unfold twWin; infer_instance

/-- One iteration of the T-wave loop of `ecg_wave_detector`:
`epoch = ecg[int(rpeak+quarter):int(rpeak+middle)]`, then
`t_wave = int(rpeak+quarter) + np.argmax(epoch)`; the `ValueError`
raised by `np.argmax` on an empty epoch is caught and the wave skipped
(`none`). -/
def tWaveOfPair (ecg : List ℚ) (p : ℕ × ℕ) : Option ℤ :=
  let epoch := npSlice ecg (twLo p.1 p.2) (twHi p.1 p.2)
  (argmax? epoch).map (fun (k : ℕ) => twLo p.1 p.2 + (k : ℤ))

/-- The `t_waves` list built by `ecg_wave_detector`. -/
def tWaves (ecg : List ℚ) (rpeaks : List ℕ) : List ℤ :=
  (adjPairs rpeaks).filterMap (tWaveOfPair ecg)

/-- Start of the P-wave search slice: `int(rpeak - middle)` where
`middle = (rpeak - rpeaks[index-1])/2` for the pair `(a, b) =
(rpeaks[index-1], rpeak)`. -/
def pwLo (a b : ℕ) : ℤ :=
  pyInt ((b : ℚ) - ((b : ℚ) - (a : ℚ)) / 2)

/-- End of the P-wave search slice: `int(rpeak - quarter)`. -/
def pwHi (a b : ℕ) : ℤ :=
  pyInt ((b : ℚ) - ((b : ℚ) - (a : ℚ)) / 2 / 2)

/-- One iteration of the P-wave loop of `ecg_wave_detector`:
`epoch = ecg[int(rpeak-middle):int(rpeak-quarter)]`, then
`p_wave = int(rpeak-quarter) + np.argmax(epoch)`.  Note that the source
adds the argmax offset to the *end* bound `int(rpeak-quarter)` of the
slice although the slice starts at `int(rpeak-middle)`. -/
def pWaveOfPair (ecg : List ℚ) (p : ℕ × ℕ) : Option ℤ :=
  let epoch := npSlice ecg (pwLo p.1 p.2) (pwHi p.1 p.2)
  (argmax? epoch).map (fun (k : ℕ) => pwHi p.1 p.2 + (k : ℤ))

/-- The `p_waves` list built by `ecg_wave_detector`. -/
def pWaves (ecg : List ℚ) (rpeaks : List ℕ) : List ℤ :=
  (adjPairs rpeaks).filterMap (pWaveOfPair ecg)

example : tWaves [0, 0, 0, 7, 1, 0, 0, 0, 0, 0] [1, 9] = [3] := by decide

example : tWaves [0, 0, 0, 7, 1, 0, 0, 0, 0, 0] [0, 1, 9] = [3] := by decide

example : pWaves [0, 0, 0, 0, 0, 0, 5, 1, 1, 0, 0, 0, 0] [0, 12] = [9] := by decide

/-! ## ecg_systole

The source builds `waves`, an array of length `len(ecg)` holding `""`
everywhere except `"R"` at the `rpeaks` indices and `"T"` at the
`t_waves` indices (the `"T"` assignment comes second, so it wins on a
collision), and then runs

    systole = [0]
    current = 0
    for index, value in enumerate(waves[1:]):
        if waves[index-1] == "R": current = 1
        if waves[index-1] == "T": current = 0
        systole.append(current)

Both peak lists are assumed in bounds (out-of-range entries would raise
an `IndexError` in the NumPy assignments). -/

/-- Wave annotation of a single sample: `"R"`, `"T"` or `""`. -/
inductive WLabel : Type where
  | R : WLabel
  | T : WLabel
  | N : WLabel
deriving DecidableEq

/-- The `waves` array as a function of the sample index: `"T"` at T-peaks
(assigned last, so it overwrites `"R"`), `"R"` at remaining R-peaks,
`""` elsewhere. -/
def waveLabel (rpeaks tpeaks : List ℕ) (i : ℕ) : WLabel :=
  if i ∈ tpeaks then .T else if i ∈ rpeaks then .R else .N

/-- One loop iteration of `ecg_systole`: the two `if`s on the label that
the iteration examines. -/
def sysStep (c : ℕ) (l : WLabel) : ℕ :=
  match l with
  | .R => 1
  | .T => 0
  | .N => c

/-- Iterations of the `ecg_systole` loop from the point where the
examined label index starts running over `waves[0], waves[1], ...`:
`sysGo lab i c s` returns the `s` values appended while examining
labels `i, i+1, ...`, starting from state `c`. -/
def sysGo (lab : ℕ → WLabel) (i c : ℕ) : ℕ → List ℕ
  | 0 => []
  | s + 1 =>
    let c2 := sysStep c (lab i)
    c2 :: sysGo lab (i + 1) c2 s

/-- `ecg_systole(ecg, rpeaks, t_waves)` for a signal of length `n`.
The loop runs over `waves[1:]` (`n - 1` iterations) and examines
`waves[index-1]`; at `index = 0` the Python index `-1` wraps around to
the last element `waves[n-1]`, and from `index = 1` on the examined
labels are `waves[0], waves[1], ...`.  The first two output samples are
therefore the initial `0` and the state after examining `waves[n-1]`,
and the rest is `sysGo` over labels from index `0`. -/
def ecg_systole (n : ℕ) (rpeaks tpeaks : List ℕ) : List ℕ :=
  let lab := waveLabel rpeaks tpeaks
  match n with
  | 0 => [0]
  | 1 => [0]
  | k + 2 =>
    let c1 := sysStep 0 (lab (k + 1))
    0 :: c1 :: sysGo lab 0 c1 k

example : ecg_systole 6 [2] [4] = [0, 0, 0, 0, 1, 1] := by decide

example : ecg_systole 8 [7] [4] = [0, 1, 1, 1, 1, 1, 0, 0] := by decide

/-- State of the `ecg_systole` loop after examining the `m` labels at
indices `i, i+1, ..., i+m-1`, starting from state `c`. -/
def sysRun (lab : ℕ → WLabel) (i c : ℕ) : ℕ → ℕ
  | 0 => c
  | m + 1 => sysRun lab (i + 1) (sysStep c (lab i)) m

theorem sysGo_length (lab : ℕ → WLabel) (i c s : ℕ) :
    (sysGo lab i c s).length = s := by
  induction s generalizing i c with
  | zero => rfl
  | succ s ih => simpa [sysGo] using ih _ _

theorem sysGo_get? (lab : ℕ → WLabel) (i c s j : ℕ) (h : j < s) :
    (sysGo lab i c s).get? j = some (sysRun lab i c (j + 1)) := by
  induction s generalizing i c j with
  | zero => omega
  | succ s ih =>
    cases j with
    | zero => rfl
    | succ j => simpa [sysGo, sysRun] using ih (i + 1) _ j (by omega)

theorem sysRun_succ (lab : ℕ → WLabel) (i c m : ℕ) :
    sysRun lab i c (m + 1) = sysStep (sysRun lab i c m) (lab (i + m)) := by
  induction m generalizing i c with
  | zero => simp [sysRun]
  | succ m ih =>
    show sysRun lab (i + 1) _ (m + 1) = _
    rw [ih]
    simp [sysRun, Nat.add_assoc, Nat.add_comm 1 m]

theorem sysRun_split (lab : ℕ → WLabel) (i c m1 m2 : ℕ) :
    sysRun lab i c (m1 + m2) = sysRun lab (i + m1) (sysRun lab i c m1) m2 := by
  induction m2 generalizing c with
  | zero => rfl
  | succ m2 ih =>
    rw [show m1 + (m2 + 1) = (m1 + m2) + 1 from rfl, sysRun_succ, ih, sysRun_succ,
      Nat.add_assoc]

theorem sysRun_allN (lab : ℕ → WLabel) (i c m : ℕ)
    (h : ∀ d, d < m → lab (i + d) = .N) : sysRun lab i c m = c := by
  induction m generalizing i c with
  | zero => rfl
  | succ m ih =>
    show sysRun lab (i + 1) (sysStep c (lab i)) m = c
    have h0 : lab i = .N := by simpa using h 0 (by omega)
    rw [h0]
    exact ih (i + 1) c fun d hd => by
      have e : i + 1 + d = i + (d + 1) := by omega
      rw [e]; exact h (d + 1) (by omega)

theorem sysRun_noT (lab : ℕ → WLabel) (i m : ℕ)
    (h : ∀ d, d < m → lab (i + d) ≠ .T) : sysRun lab i 1 m = 1 := by
  induction m generalizing i with
  | zero => rfl
  | succ m ih =>
    show sysRun lab (i + 1) (sysStep 1 (lab i)) m = 1
    have h0 : lab i ≠ .T := by simpa using h 0 (by omega)
    have hstep : sysStep 1 (lab i) = 1 := by
      cases hl : lab i
      · rfl
      · exact absurd hl h0
      · rfl
    rw [hstep]
    exact ih (i + 1) fun d hd => by
      have e : i + 1 + d = i + (d + 1) := by omega
      rw [e]; exact h (d + 1) (by omega)

theorem sysRun_lastR (lab : ℕ → WLabel) (i c m d0 : ℕ) (hd : d0 < m)
    (h0 : lab (i + d0) = .R) (hN : ∀ d, d0 < d → d < m → lab (i + d) = .N) :
    sysRun lab i c m = 1 := by
  have hm : m = (d0 + 1) + (m - d0 - 1) := by omega
  rw [hm, sysRun_split, sysRun_succ, h0]
  show sysRun lab (i + (d0 + 1)) 1 (m - d0 - 1) = 1
  exact sysRun_allN lab _ 1 _ fun d hdlt => by
    have := hN (d0 + 1 + d) (by omega) (by omega)
    rwa [← Nat.add_assoc] at this

theorem sysRun_lastT (lab : ℕ → WLabel) (i c m d0 : ℕ) (hd : d0 < m)
    (h0 : lab (i + d0) = .T) (hN : ∀ d, d0 < d → d < m → lab (i + d) = .N) :
    sysRun lab i c m = 0 := by
  have hm : m = (d0 + 1) + (m - d0 - 1) := by omega
  rw [hm, sysRun_split, sysRun_succ, h0]
  show sysRun lab (i + (d0 + 1)) 0 (m - d0 - 1) = 0
  exact sysRun_allN lab _ 0 _ fun d hdlt => by
    have := hN (d0 + 1 + d) (by omega) (by omega)
    rwa [← Nat.add_assoc] at this

theorem ecg_systole_get?_ge_two (rs ts : List ℕ) (k kk : ℕ) (h2 : 2 ≤ k)
    (hk : k < kk + 2) :
    (ecg_systole (kk + 2) rs ts).get? k =
      some (sysRun (waveLabel rs ts) 0
        (sysStep 0 (waveLabel rs ts (kk + 1))) (k - 1)) := by
  obtain ⟨j, rfl⟩ : ∃ j, k = j + 2 := ⟨k - 2, by omega⟩
  show (0 :: _ :: sysGo _ 0 _ kk).get? (j + 2) = _
  rw [List.get?_cons_succ, List.get?_cons_succ,
    sysGo_get? _ 0 _ kk j (by omega)]
  simp

theorem ecg_systole_length (n : ℕ) (rs ts : List ℕ) (hn : 1 ≤ n) :
    (ecg_systole n rs ts).length = n := by
  match n, hn with
  | 1, _ => rfl
  | (k + 2), _ =>
    show (0 :: _ :: sysGo _ 0 _ k).length = k + 2
    simp [sysGo_length]

theorem waveLabel_eq_T (rs ts : List ℕ) (d : ℕ) :
    waveLabel rs ts d = .T ↔ d ∈ ts := by
  unfold waveLabel
  by_cases h1 : d ∈ ts
  · simp [h1]
  · by_cases h2 : d ∈ rs <;> simp [h1, h2]

/-- Claim C10: the phase classifier reads `waves[index-1]` while
enumerating `waves[1:]`, so the value at output sample 1 is decided by
the wave label at the *last* index of the signal (Python negative-index
wraparound).  If the last sample index is an R-peak (and not a T-peak),
sample 1 is marked systole and the state stays 1 up to and including
sample `t+1`, where `t` is the first T label; sample `t+2` is diastole
again — no matter whether any R-peak occurs near the start. -/
theorem ecg_systole_wraparound (n : ℕ) (rs ts : List ℕ) (hn : 2 ≤ n)
    (hrlast : n - 1 ∈ rs) (htlast : n - 1 ∉ ts) (t : ℕ) (ht : t ∈ ts)
    (htmin : ∀ u ∈ ts, t ≤ u) :
    (∀ k, 1 ≤ k → k ≤ t + 1 → k < n → (ecg_systole n rs ts).get? k = some 1) ∧
    (t + 2 < n → (ecg_systole n rs ts).get? (t + 2) = some 0) := by
  obtain ⟨kk, rfl⟩ : ∃ kk, n = kk + 2 := ⟨n - 2, by omega⟩
  have hlast : waveLabel rs ts (kk + 1) = .R := by
    have h1 : kk + 1 ∉ ts := by simpa using htlast
    have h2 : kk + 1 ∈ rs := by simpa using hrlast
    unfold waveLabel
    rw [if_neg h1, if_pos h2]
  have hstate : sysStep 0 (waveLabel rs ts (kk + 1)) = 1 := by rw [hlast]; rfl
  have hnoT : ∀ m, m ≤ t → sysRun (waveLabel rs ts) 0 1 m = 1 := by
    intro m hmt
    refine sysRun_noT _ 0 m fun d hd => ?_
    intro hT
    rw [Nat.zero_add] at hT
    have : t ≤ d := htmin d ((waveLabel_eq_T rs ts d).1 hT)
    omega
  constructor
  · intro k hk1 hk2 hk3
    match k, hk1 with
    | 1, _ =>
      show (0 :: sysStep 0 (waveLabel rs ts (kk + 1)) :: _).get? 1 = some 1
      rw [List.get?_cons_succ, List.get?_cons_zero, hstate]
    | (j + 2), _ =>
      rw [ecg_systole_get?_ge_two rs ts (j + 2) kk (by omega) hk3, hstate]
      have : j + 2 - 1 = j + 1 := by omega
      rw [this, hnoT (j + 1) (by omega)]
  · intro hlt
    rw [ecg_systole_get?_ge_two rs ts (t + 2) kk (by omega) hlt, hstate]
    have h1 : t + 2 - 1 = t + 1 := by omega
    rw [h1, sysRun_succ, hnoT t (by omega)]
    have h2 : waveLabel rs ts (0 + t) = .T := by
      rw [Nat.zero_add]; exact (waveLabel_eq_T rs ts t).2 ht
    rw [h2]
    rfl

/-- Witness for `ecg_systole_wraparound`: signal length 8, R-peak at the
last index 7, T-peak at 4; samples 1..5 are systole and sample 6 is
diastole. -/
theorem ecg_systole_wraparound_inst :
    (∀ k, 1 ≤ k → k ≤ 5 → k < 8 → (ecg_systole 8 [7] [4]).get? k = some 1) ∧
    (4 + 2 < 8 → (ecg_systole 8 [7] [4]).get? (4 + 2) = some 0) :=
  ecg_systole_wraparound 8 [7] [4] (by decide) (by decide) (by decide) 4
    (by decide) (by decide)

/-- Claim C1 is false: the classifier changes state two samples after a
wave index, not one.  With signal length 6, an R-peak at 2 and a T-peak
at 4 the claimed output would be `[0, 0, 0, 1, 1, 0]` (systole one
sample after R, diastole one sample after T), but the code produces
`[0, 0, 0, 0, 1, 1]`. -/
theorem ecg_systole_not_one_sample_delay :
    ecg_systole 6 [2] [4] = [0, 0, 0, 0, 1, 1] ∧
    ecg_systole 6 [2] [4] ≠ [0, 0, 0, 1, 1, 0] := by decide

theorem scenarioLab_N (d : ℕ) (h1 : d ≠ 100) (h2 : d ≠ 1100) (h3 : d ≠ 2100)
    (h4 : d ≠ 250) (h5 : d ≠ 1250) :
    waveLabel [100, 1100, 2100] [250, 1250] d = .N := by
  have ht : d ∉ ([250, 1250] : List ℕ) := by
    intro hm; simp at hm; omega
  have hr : d ∉ ([100, 1100, 2100] : List ℕ) := by
    intro hm; simp at hm; omega
  unfold waveLabel
  rw [if_neg ht, if_neg hr]

theorem scenarioRun (m : ℕ) (hm : m ≤ 2198) :
    sysRun (waveLabel [100, 1100, 2100] [250, 1250]) 0 0 m =
      if (101 ≤ m ∧ m ≤ 250) ∨ (1101 ≤ m ∧ m ≤ 1250) ∨ 2101 ≤ m then 1
      else 0 := by
  have hd : ∀ d, d ≠ 100 → d ≠ 1100 → d ≠ 2100 → d ≠ 250 → d ≠ 1250 →
      waveLabel [100, 1100, 2100] [250, 1250] (0 + d) = .N := by
    intro d a b c e f
    rw [Nat.zero_add]; exact scenarioLab_N d a b c e f
  rcases Nat.lt_or_ge m 101 with h1 | h1
  · rw [if_neg (by omega)]
    exact sysRun_allN _ 0 0 m fun d hdm =>
      hd d (by omega) (by omega) (by omega) (by omega) (by omega)
  rcases Nat.lt_or_ge m 251 with h2 | h2
  · rw [if_pos (by omega)]
    exact sysRun_lastR _ 0 0 m 100 (by omega) (by decide) fun d ha hb =>
      hd d (by omega) (by omega) (by omega) (by omega) (by omega)
  rcases Nat.lt_or_ge m 1101 with h3 | h3
  · rw [if_neg (by omega)]
    exact sysRun_lastT _ 0 0 m 250 (by omega) (by decide) fun d ha hb =>
      hd d (by omega) (by omega) (by omega) (by omega) (by omega)
  rcases Nat.lt_or_ge m 1251 with h4 | h4
  · rw [if_pos (by omega)]
    exact sysRun_lastR _ 0 0 m 1100 (by omega) (by decide) fun d ha hb =>
      hd d (by omega) (by omega) (by omega) (by omega) (by omega)
  rcases Nat.lt_or_ge m 2101 with h5 | h5
  · rw [if_neg (by omega)]
    exact sysRun_lastT _ 0 0 m 1250 (by omega) (by decide) fun d ha hb =>
      hd d (by omega) (by omega) (by omega) (by omega) (by omega)
  · rw [if_pos (by omega)]
    exact sysRun_lastR _ 0 0 m 2100 (by omega) (by decide) fun d ha hb =>
      hd d (by omega) (by omega) (by omega) (by omega) (by omega)

/-- Claim C1 (amended): state transitions occur two samples after each R
or T index (and sample 1 is decided by the label at the last signal
index).  For the scenario R-peaks `[100, 1100, 2100]`, T-peaks
`[250, 1250]` over length 2200, the output is 1 exactly on samples
102..251, 1102..1251 and 2102..2199 (the last R-peak has no following
T-peak, so the signal stays in systole to the end), and 0 elsewhere. -/
theorem ecg_systole_scenario :
    ecg_systole 2200 [100, 1100, 2100] [250, 1250] =
      (List.range 2200).map (fun k =>
        if (102 ≤ k ∧ k ≤ 251) ∨ (1102 ≤ k ∧ k ≤ 1251) ∨ 2102 ≤ k then 1
        else 0) := by
  have h2200 : (2200 : ℕ) = 2198 + 2 := by norm_num
  have hlab2199 : waveLabel [100, 1100, 2100] [250, 1250] (2198 + 1) = .N := by
    have : (2198 + 1 : ℕ) = 2199 := by norm_num
    rw [this]
    exact scenarioLab_N 2199 (by omega) (by omega) (by omega) (by omega)
      (by omega)
  apply List.ext
  intro k
  rcases Nat.lt_or_ge k 2200 with hk | hk
  · rw [List.get?_map, List.get?_range hk]
    simp only [Option.map_some']
    match k with
    | 0 =>
      rw [h2200]
      show some 0 = _
      rw [if_neg (by omega)]
    | 1 =>
      rw [h2200]
      show some (sysStep 0 (waveLabel [100, 1100, 2100] [250, 1250] (2198 + 1)))
        = _
      rw [hlab2199, if_neg (by omega)]
      rfl
    | (j + 2) =>
      rw [h2200,
        ecg_systole_get?_ge_two [100, 1100, 2100] [250, 1250] (j + 2) 2198
          (by omega) (by omega),
        hlab2199]
      have he : j + 2 - 1 = j + 1 := by omega
      have hstep : sysStep 0 WLabel.N = 0 := rfl
      rw [he, hstep, scenarioRun (j + 1) (by omega)]
      by_cases hc : (102 ≤ j + 2 ∧ j + 2 ≤ 251) ∨ (1102 ≤ j + 2 ∧ j + 2 ≤ 1251)
          ∨ 2102 ≤ j + 2
      · rw [if_pos (by omega), if_pos hc]
      · rw [if_neg (by omega), if_neg hc]
  · rw [List.get?_eq_none.2, List.get?_eq_none.2]
    · simpa using hk
    · rw [ecg_systole_length 2200 _ _ (by omega)]; omega

/-! ## Lemmas about argmax, slicing and consecutive pairs -/

theorem argmaxAux_isSome (x : ℚ) (xs : List ℚ) :
    (argmaxAux (x :: xs)).isSome := by
  unfold argmaxAux
  cases argmaxAux xs with
  | none => rfl
  | some p =>
    obtain ⟨j, m⟩ := p
    by_cases h : m > x <;> simp [h]

theorem argmaxAux_ne_none (l : List ℚ) (h : argmaxAux l = none) : l = [] := by
  cases l with
  | nil => rfl
  | cons x xs =>
    have hs := argmaxAux_isSome x xs
    rw [h] at hs
    exact Bool.noConfusion hs

theorem argmaxAux_cons_none (x : ℚ) (xs : List ℚ) (h : argmaxAux xs = none) :
    argmaxAux (x :: xs) = some (0, x) := by
  rw [argmaxAux, h]

theorem argmaxAux_cons_some (x : ℚ) (xs : List ℚ) (j : ℕ) (m : ℚ)
    (h : argmaxAux xs = some (j, m)) :
    argmaxAux (x :: xs) = if m > x then some (j + 1, m) else some (0, x) := by
  rw [argmaxAux, h]

theorem argmaxAux_spec (l : List ℚ) (j : ℕ) (m : ℚ)
    (h : argmaxAux l = some (j, m)) :
    j < l.length ∧ l.get? j = some m ∧
      (∀ i v, l.get? i = some v → v ≤ m) ∧
      (∀ i v, i < j → l.get? i = some v → v < m) := by
  induction l generalizing j m with
  | nil => simp [argmaxAux] at h
  | cons x xs ih =>
    cases hx : argmaxAux xs with
    | none =>
      obtain rfl := argmaxAux_ne_none xs hx
      rw [argmaxAux_cons_none x [] hx] at h
      simp only [Option.some.injEq, Prod.mk.injEq] at h
      obtain ⟨rfl, rfl⟩ := h
      refine ⟨by simp, rfl, ?_, ?_⟩
      · intro i v hv
        cases i with
        | zero =>
          rw [List.get?_cons_zero] at hv
          injection hv with hv'
          exact le_of_eq hv'.symm
        | succ i => simp at hv
      · intro i v hi; omega
    | some p =>
      obtain ⟨j', m'⟩ := p
      obtain ⟨hj', hget', hmax', hfirst'⟩ := ih j' m' hx
      rw [argmaxAux_cons_some x xs j' m' hx] at h
      by_cases hgt : m' > x
      · rw [if_pos hgt] at h
        simp only [Option.some.injEq, Prod.mk.injEq] at h
        obtain ⟨rfl, rfl⟩ := h
        refine ⟨by simpa using hj', by simpa using hget', ?_, ?_⟩
        · intro i v hv
          cases i with
          | zero =>
            rw [List.get?_cons_zero] at hv
            injection hv with hv'
            exact hv' ▸ le_of_lt hgt
          | succ i =>
            rw [List.get?_cons_succ] at hv
            exact hmax' i v hv
        · intro i v hi hv
          cases i with
          | zero =>
            rw [List.get?_cons_zero] at hv
            injection hv with hv'
            exact hv' ▸ hgt
          | succ i =>
            rw [List.get?_cons_succ] at hv
            exact hfirst' i v (by omega) hv
      · rw [if_neg hgt] at h
        simp only [Option.some.injEq, Prod.mk.injEq] at h
        obtain ⟨rfl, rfl⟩ := h
        refine ⟨by simp, rfl, ?_, ?_⟩
        · intro i v hv
          cases i with
          | zero =>
            rw [List.get?_cons_zero] at hv
            injection hv with hv'
            exact le_of_eq hv'.symm
          | succ i =>
            rw [List.get?_cons_succ] at hv
            exact le_trans (hmax' i v hv) (le_of_not_lt hgt)
        · intro i v hi; omega

theorem argmax?_eq_some (l : List ℚ) (k : ℕ) (h : argmax? l = some k) :
    ∃ m, argmaxAux l = some (k, m) := by
  unfold argmax? at h
  cases hx : argmaxAux l with
  | none => rw [hx] at h; simp at h
  | some p =>
    rw [hx] at h
    obtain ⟨j, m⟩ := p
    refine ⟨m, ?_⟩
    simp at h
    rw [h]

theorem npSlice_length {α : Type} (l : List α) (i j : ℤ)
    (hj : sliceIdx l.length j ≤ l.length) :
    (npSlice l i j).length = sliceIdx l.length j - sliceIdx l.length i := by
  unfold npSlice
  simp only [List.length_take, List.length_drop]
  omega

theorem npSlice_get? {α : Type} (l : List α) (i j : ℤ) (k : ℕ)
    (hk : k < sliceIdx l.length j - sliceIdx l.length i) :
    (npSlice l i j).get? k = l.get? (sliceIdx l.length i + k) := by
  unfold npSlice
  rw [List.get?_take hk, List.get?_drop]

theorem sliceIdx_le_length {α : Type} (l : List α) (j : ℤ) :
    sliceIdx l.length j ≤ l.length := by
  unfold sliceIdx
  split <;> omega

theorem adjPairs_lt (l : List ℕ) (hinc : List.Chain' (· < ·) l)
    (a b : ℕ) (hab : (a, b) ∈ adjPairs l) : a < b := by
  induction l with
  | nil => simp [adjPairs] at hab
  | cons x xs ih =>
    cases xs with
    | nil => simp [adjPairs] at hab
    | cons y ys =>
      rw [List.chain'_cons] at hinc
      rw [adjPairs] at hab
      rcases List.mem_cons.1 hab with h | h
      · injection h with h1 h2; subst h1; subst h2; exact hinc.1
      · exact ih hinc.2 h

theorem adjPairs_length (l : List ℕ) : (adjPairs l).length = l.length - 1 := by
  induction l with
  | nil => rfl
  | cons x xs ih =>
    cases xs with
    | nil => rfl
    | cons y ys => simp [adjPairs] at ih ⊢; omega

theorem length_filterMap_of_none {α β : Type} (f : α → Option β) (l : List α)
    (x : α) (hx : x ∈ l) (hfx : f x = none) :
    (l.filterMap f).length + 1 ≤ l.length := by
  induction l with
  | nil => simp at hx
  | cons y ys ih =>
    rcases List.mem_cons.1 hx with rfl | hmem
    · rw [List.filterMap_cons_none hfx]
      simpa using Nat.succ_le_succ (List.length_filterMap_le f ys)
    · cases hfy : f y with
      | none =>
        rw [List.filterMap_cons_none hfy]
        simp only [List.length_cons]
        exact le_trans (ih hmem) (by omega)
      | some z =>
        rw [List.filterMap_cons_some hfy]
        simpa using Nat.succ_le_succ (ih hmem)

theorem pyInt_of_nonneg (q : ℚ) (h : 0 ≤ q) : pyInt q = ⌊q⌋ := by
  unfold pyInt
  rw [if_neg (not_lt.2 h)]

theorem twLo_nonneg (a b : ℕ) (hab : a ≤ b) : 0 ≤ twLo a b := by
  have hban : (a : ℚ) ≤ (b : ℚ) := by exact_mod_cast hab
  have hq : (0 : ℚ) ≤ (a : ℚ) + ((b : ℚ) - (a : ℚ)) / 2 / 2 := by
    have h1 : (0 : ℚ) ≤ ((b : ℚ) - (a : ℚ)) / 2 / 2 := by
      have : (0 : ℚ) ≤ (b : ℚ) - (a : ℚ) := by linarith
      positivity
    have h2 : (0 : ℚ) ≤ (a : ℚ) := by positivity
    linarith
  rw [twLo, pyInt_of_nonneg _ hq]
  exact Int.floor_nonneg.2 hq

theorem twLo_le_twHi (a b : ℕ) (hab : a ≤ b) : twLo a b ≤ twHi a b := by
  have hban : (a : ℚ) ≤ (b : ℚ) := by exact_mod_cast hab
  have hd : (0 : ℚ) ≤ (b : ℚ) - (a : ℚ) := by linarith
  have hle : (a : ℚ) + ((b : ℚ) - (a : ℚ)) / 2 / 2 ≤
      (a : ℚ) + ((b : ℚ) - (a : ℚ)) / 2 := by linarith
  have h1 : (0 : ℚ) ≤ (a : ℚ) + ((b : ℚ) - (a : ℚ)) / 2 / 2 := by
    have : (0 : ℚ) ≤ (a : ℚ) := by positivity
    linarith
  have h2 : (0 : ℚ) ≤ (a : ℚ) + ((b : ℚ) - (a : ℚ)) / 2 := by linarith
  rw [twLo, twHi, pyInt_of_nonneg _ h1, pyInt_of_nonneg _ h2]
  exact Int.floor_le_floor hle

theorem sliceIdx_of_nonneg (n : ℕ) (i : ℤ) (h : 0 ≤ i) :
    sliceIdx n i = min i.toNat n := by
  unfold sliceIdx
  rw [if_neg (not_lt.2 h)]

theorem getD_of_get? {α : Type} [Inhabited α] (l : List α) (i : ℕ) (v d : α)
    (h : l.get? i = some v) : l.getD i d = v := by
  simp [List.getD_eq_getElem?_getD, ← List.get?_eq_getElem?, h]

theorem tWaveOfPair_eq_some (ecg : List ℚ) (p : ℕ × ℕ) (w : ℤ)
    (h : tWaveOfPair ecg p = some w) :
    ∃ k : ℕ, argmax? (npSlice ecg (twLo p.1 p.2) (twHi p.1 p.2)) = some k ∧
      w = twLo p.1 p.2 + (k : ℤ) := by
  unfold tWaveOfPair at h
  obtain ⟨k, hk, hwk⟩ := Option.map_eq_some'.1 h
  exact ⟨k, hk, hwk.symm⟩

/-- Claim C8: every T-wave index returned by the wave localizer is the
index, in the full signal, of the (first) maximum of the signal over the
T search sub-window `[int(R_i + quarter), int(R_i + middle))` of its
R-peak pair, intersected with the signal bounds. -/
theorem tWaves_max (ecg : List ℚ) (rpeaks : List ℕ)
    (hinc : List.Chain' (· < ·) rpeaks) (w : ℤ) (hw : w ∈ tWaves ecg rpeaks) :
    ∃ a b, (a, b) ∈ adjPairs rpeaks ∧
      ∃ t : ℕ, w = (t : ℤ) ∧ twWin ecg.length a b t ∧
        (∀ i, twWin ecg.length a b i → ecg.getD i 0 ≤ ecg.getD t 0) ∧
        (∀ i, twWin ecg.length a b i → i < t → ecg.getD i 0 < ecg.getD t 0) := by
  obtain ⟨p, hp, hf⟩ := List.mem_filterMap.1 hw
  obtain ⟨a, b⟩ := p
  have hab : a < b := adjPairs_lt rpeaks hinc a b hp
  refine ⟨a, b, hp, ?_⟩
  obtain ⟨k, hk, hwk⟩ := tWaveOfPair_eq_some ecg (a, b) w hf
  obtain ⟨m, hm⟩ := argmax?_eq_some _ k hk
  obtain ⟨hklen, hkget, hmax, hfirst⟩ := argmaxAux_spec _ k m hm
  have h0lo : 0 ≤ twLo a b := twLo_nonneg a b (le_of_lt hab)
  have hlohi : twLo a b ≤ twHi a b := twLo_le_twHi a b (le_of_lt hab)
  have h0hi : 0 ≤ twHi a b := le_trans h0lo hlohi
  have hsmin : sliceIdx ecg.length (twLo a b) = min (twLo a b).toNat ecg.length :=
    sliceIdx_of_nonneg ecg.length _ h0lo
  have hemin : sliceIdx ecg.length (twHi a b) = min (twHi a b).toNat ecg.length :=
    sliceIdx_of_nonneg ecg.length _ h0hi
  have heln : sliceIdx ecg.length (twHi a b) ≤ ecg.length :=
    sliceIdx_le_length ecg _
  have hlen : (npSlice ecg (twLo a b) (twHi a b)).length =
      sliceIdx ecg.length (twHi a b) - sliceIdx ecg.length (twLo a b) :=
    npSlice_length ecg _ _ heln
  rw [hlen] at hklen
  have hse : sliceIdx ecg.length (twLo a b) < sliceIdx ecg.length (twHi a b) := by
    omega
  have hsval : sliceIdx ecg.length (twLo a b) = (twLo a b).toNat := by
    rcases Nat.lt_or_ge (twLo a b).toNat ecg.length with hc | hc
    · rw [hsmin, Nat.min_eq_left (le_of_lt hc)]
    · exfalso
      rw [hsmin, Nat.min_eq_right hc] at hse
      omega
  have hkget2 : ecg.get? (sliceIdx ecg.length (twLo a b) + k) = some m := by
    rw [← npSlice_get? ecg (twLo a b) (twHi a b) k (by omega)]
    exact hkget
  -- every in-window position corresponds to a slice position carrying the
  -- same sample
  have hwinval : ∀ i, twWin ecg.length a b i → ∃ v, ecg.get? i = some v ∧
      (npSlice ecg (twLo a b) (twHi a b)).get?
        (i - sliceIdx ecg.length (twLo a b)) = some v := by
    intro i hiw
    obtain ⟨hi1, hi2, hi3⟩ := hiw
    have hilo : (twLo a b).toNat ≤ i := Int.toNat_le.2 hi1
    have hihi : i < (twHi a b).toNat := Int.lt_toNat.2 hi2
    have hie : i < sliceIdx ecg.length (twHi a b) := by rw [hemin]; omega
    have his : sliceIdx ecg.length (twLo a b) ≤ i := by omega
    have hgi : (npSlice ecg (twLo a b) (twHi a b)).get?
        (i - sliceIdx ecg.length (twLo a b)) =
        ecg.get? (sliceIdx ecg.length (twLo a b) +
          (i - sliceIdx ecg.length (twLo a b))) :=
      npSlice_get? ecg _ _ _ (by omega)
    rw [show sliceIdx ecg.length (twLo a b) +
        (i - sliceIdx ecg.length (twLo a b)) = i from by omega] at hgi
    cases hv : ecg.get? i with
    | none =>
      exfalso
      have := List.get?_eq_none.1 hv
      omega
    | some v =>
      rw [hv] at hgi
      exact ⟨v, rfl, hgi⟩
  refine ⟨sliceIdx ecg.length (twLo a b) + k, ?_, ?_, ?_, ?_⟩
  · rw [hwk, hsval]
    push_cast
    rw [Int.toNat_of_nonneg h0lo]
  · refine ⟨?_, ?_, ?_⟩
    · rw [hsval]
      push_cast
      rw [Int.toNat_of_nonneg h0lo]
      omega
    · have h2 : sliceIdx ecg.length (twHi a b) ≤ (twHi a b).toNat := by
        rw [hemin]; omega
      have h3 : sliceIdx ecg.length (twLo a b) + k < (twHi a b).toNat := by
        omega
      exact Int.lt_toNat.1 (by exact_mod_cast h3)
    · omega
  · intro i hiw
    obtain ⟨v, hv, hgi⟩ := hwinval i hiw
    have hvm : v ≤ m := hmax _ v hgi
    rw [getD_of_get? ecg i v 0 hv, getD_of_get? ecg _ m 0 hkget2]
    exact hvm
  · intro i hiw hilt
    obtain ⟨v, hv, hgi⟩ := hwinval i hiw
    obtain ⟨hi1, hi2, hi3⟩ := hiw
    have hilo : (twLo a b).toNat ≤ i := Int.toNat_le.2 hi1
    have hvm : v < m := hfirst _ v (by omega) hgi
    rw [getD_of_get? ecg i v 0 hv, getD_of_get? ecg _ m 0 hkget2]
    exact hvm

/-- Witness for `tWaves_max`: signal `[0,0,0,7,1,0,0,0,0,0]` with R-peaks
`[1, 9]`; the single detected T-wave index 3 is the first maximizer of
the window `[3, 5)`. -/
theorem tWaves_max_inst :
    ∃ a b, (a, b) ∈ adjPairs [1, 9] ∧
      ∃ t : ℕ, (3 : ℤ) = (t : ℤ) ∧
        twWin ([0, 0, 0, 7, 1, 0, 0, 0, 0, 0] : List ℚ).length a b t ∧
        (∀ i, twWin ([0, 0, 0, 7, 1, 0, 0, 0, 0, 0] : List ℚ).length a b i →
          ([0, 0, 0, 7, 1, 0, 0, 0, 0, 0] : List ℚ).getD i 0 ≤
            ([0, 0, 0, 7, 1, 0, 0, 0, 0, 0] : List ℚ).getD t 0) ∧
        (∀ i, twWin ([0, 0, 0, 7, 1, 0, 0, 0, 0, 0] : List ℚ).length a b i →
          i < t →
          ([0, 0, 0, 7, 1, 0, 0, 0, 0, 0] : List ℚ).getD i 0 <
            ([0, 0, 0, 7, 1, 0, 0, 0, 0, 0] : List ℚ).getD t 0) :=
  tWaves_max [0, 0, 0, 7, 1, 0, 0, 0, 0, 0] [1, 9] (by simp [List.chain'_cons]) 3 (by decide)

/-- Claim C9: a consecutive R-peak pair whose T search sub-window is
empty is skipped silently — the other pairs still produce their waves
(every pair whose window is nonempty contributes its computed index to
the output), and the T-wave list is at least two shorter than the R-peak
list; the P-wave list is likewise no longer than the number of pairs. -/
theorem waveDetector_skips_empty (ecg : List ℚ) (rpeaks : List ℕ)
    (hinc : List.Chain' (· < ·) rpeaks) (p : ℕ × ℕ) (hp : p ∈ adjPairs rpeaks)
    (hempty : tWaveOfPair ecg p = none) :
    (tWaves ecg rpeaks).length + 2 ≤ rpeaks.length ∧
    (∀ q ∈ adjPairs rpeaks, ∀ w, tWaveOfPair ecg q = some w →
      w ∈ tWaves ecg rpeaks) ∧
    (∀ q ∈ adjPairs rpeaks, ∀ w, pWaveOfPair ecg q = some w →
      w ∈ pWaves ecg rpeaks) ∧
    (pWaves ecg rpeaks).length + 1 ≤ rpeaks.length := by
  have hpos : 0 < (adjPairs rpeaks).length :=
    List.length_pos.2 (List.ne_nil_of_mem hp)
  have hlen := adjPairs_length rpeaks
  refine ⟨?_, ?_, ?_, ?_⟩
  · have h1 := length_filterMap_of_none (tWaveOfPair ecg) (adjPairs rpeaks)
      p hp hempty
    unfold tWaves
    omega
  · intro q hq w hw
    exact List.mem_filterMap.2 ⟨q, hq, hw⟩
  · intro q hq w hw
    exact List.mem_filterMap.2 ⟨q, hq, hw⟩
  · have h1 := List.length_filterMap_le (pWaveOfPair ecg) (adjPairs rpeaks)
    unfold pWaves
    omega

/-- Witness for `waveDetector_skips_empty`: R-peaks `[0, 1, 9]` over a
10-sample signal; the pair `(0, 1)` (adjacent peaks, 1 sample apart)
yields an empty T window and is skipped, the pair `(1, 9)` still yields
its T-wave. -/
theorem waveDetector_skips_empty_inst :
    (tWaves [0, 0, 0, 7, 1, 0, 0, 0, 0, 0] [0, 1, 9]).length + 2 ≤
      ([0, 1, 9] : List ℕ).length ∧
    (∀ q ∈ adjPairs [0, 1, 9], ∀ w,
      tWaveOfPair [0, 0, 0, 7, 1, 0, 0, 0, 0, 0] q = some w →
      w ∈ tWaves [0, 0, 0, 7, 1, 0, 0, 0, 0, 0] [0, 1, 9]) ∧
    (∀ q ∈ adjPairs [0, 1, 9], ∀ w,
      pWaveOfPair [0, 0, 0, 7, 1, 0, 0, 0, 0, 0] q = some w →
      w ∈ pWaves [0, 0, 0, 7, 1, 0, 0, 0, 0, 0] [0, 1, 9]) ∧
    (pWaves [0, 0, 0, 7, 1, 0, 0, 0, 0, 0] [0, 1, 9]).length + 1 ≤
      ([0, 1, 9] : List ℕ).length :=
  waveDetector_skips_empty [0, 0, 0, 7, 1, 0, 0, 0, 0, 0] [0, 1, 9]
    (by simp [List.chain'_cons]) (0, 1) (by decide) (by decide)

/-- Claim C2 is contradicted by the code: the P-wave loop slices
`ecg[int(rpeak-middle):int(rpeak-quarter)]` but then adds the argmax
offset to `int(rpeak-quarter)` — the *end* of the slice — instead of its
start.  For the signal below with R-peaks `[0, 12]` the search window is
`[6, 9)`, whose maximum value 5 sits at full-signal index 6: the claim
says the returned P index is 6, but the code returns 9 (and the value at
9 is not even the window maximum). -/
theorem pWaves_wrong_offset :
    pWaves [0, 0, 0, 0, 0, 0, 5, 1, 1, 0, 0, 0, 0] [0, 12] = [9] ∧
    pwLo 0 12 = 6 ∧ pwHi 0 12 = 9 ∧
    (∀ i < 9, 6 ≤ i →
      ([0, 0, 0, 0, 0, 0, 5, 1, 1, 0, 0, 0, 0] : List ℚ).getD i 0 ≤
        ([0, 0, 0, 0, 0, 0, 5, 1, 1, 0, 0, 0, 0] : List ℚ).getD 6 0) ∧
    ([0, 0, 0, 0, 0, 0, 5, 1, 1, 0, 0, 0, 0] : List ℚ).getD 9 0 <
      ([0, 0, 0, 0, 0, 0, 5, 1, 1, 0, 0, 0, 0] : List ℚ).getD 6 0 := by
  decide

/-! ## discrete_to_continuous (signal.py) and the heart-rate column

`discrete_to_continuous(values, value_times, sampling_rate)`:
  - `initial_index = value_times[0]` raises `IndexError` on an empty
    array (before any spline code runs);
  - `scipy.interpolate.splrep(x, y, k=3, s=0)` raises
    `TypeError("m > k must hold")` when the number of points is at most
    3;
  - otherwise the fitted spline — external SciPy code, modelled by the
    parameter `splineEval`, the composite of `splrep` and `splev` on the
    shifted times — is evaluated at `x = np.arange(0, value_times[-1] -
    initial_index, 1)` and the resulting series is indexed by
    `initial_index + 0, 1, ...` (`sampling_rate` is unused by the
    source).

The caller `ecg_preprocess` wraps the call in `try: ... except
TypeError:` and on that error stores a NaN-filled `Heart_Rate` column;
an `IndexError` is not caught and propagates.  On success, assigning the
returned series to the dataframe aligns it on the row index
`0..len(ecg)-1`; rows outside the series index become NaN (`none`). -/

inductive PyErr : Type where
  | typeError : PyErr
  | indexError : PyErr
deriving DecidableEq

/-- `discrete_to_continuous` from `neurokit/signal/signal.py`. -/
def discrete_to_continuous (splineEval : ℤ → ℚ) (values : List ℚ)
    (value_times : List ℤ) : Except PyErr (List (ℤ × ℚ)) :=
  match value_times with
  | [] => .error .indexError
  | t0 :: rest =>
    if (t0 :: rest).length ≤ 3 then .error .typeError
    else
      let tlast := (t0 :: rest).getLast (List.cons_ne_nil t0 rest)
      let len : ℕ := (tlast - t0).toNat
      .ok ((List.range len).map (fun (x : ℕ) =>
        (t0 + (x : ℤ), splineEval (x : ℤ))))

/-- The heart-rate branch of `ecg_preprocess` (the `try`/`except
TypeError` around `discrete_to_continuous` plus the pandas column
alignment). -/
def heartRateColumn (splineEval : ℤ → ℚ) (ecgLen : ℕ) (values : List ℚ)
    (value_times : List ℤ) : Except PyErr (List (Option ℚ)) :=
  match discrete_to_continuous splineEval values value_times with
  | .ok s => .ok ((List.range ecgLen).map (fun i =>
      (s.find? (fun p => p.1 == (i : ℤ))).map Prod.snd))
  | .error .typeError => .ok (List.replicate ecgLen none)
  | .error .indexError => .error .indexError

/-- Claim C5 is false for the empty series: `value_times[0]` raises
`IndexError` before the spline fit is reached, and the calling pipeline
catches only `TypeError`, so the error propagates (a crash) instead of a
NaN substitution. -/
theorem discrete_to_continuous_empty_crash :
    discrete_to_continuous (fun _ => 0) [] [] = .error .indexError ∧
    heartRateColumn (fun _ => 0) 5 [] [] = .error .indexError ∧
    PyErr.indexError ≠ PyErr.typeError :=
  ⟨rfl, rfl, by decide⟩

/-- Claim C5 (amended): for a discrete series with at least one and
fewer than four points, the spline fit fails with `TypeError` (the
spec's `InsufficientDataError`) and the calling pipeline catches it and
substitutes a NaN column of the full signal length. -/
theorem discrete_to_continuous_short (splineEval : ℤ → ℚ) (ecgLen : ℕ)
    (values : List ℚ) (value_times : List ℤ) (hne : value_times ≠ [])
    (hlt : value_times.length ≤ 3) :
    discrete_to_continuous splineEval values value_times =
      .error .typeError ∧
    heartRateColumn splineEval ecgLen values value_times =
      .ok (List.replicate ecgLen none) := by
  match value_times, hne with
  | t0 :: rest, _ =>
    have h1 : discrete_to_continuous splineEval values (t0 :: rest) =
        .error .typeError := by
      simp only [discrete_to_continuous]
      rw [if_pos hlt]
    refine ⟨h1, ?_⟩
    simp only [heartRateColumn, h1]

/-- Witness for `discrete_to_continuous_short`: three points. -/
theorem discrete_to_continuous_short_inst :
    discrete_to_continuous (fun _ => (0 : ℚ)) [1, 2, 3] [0, 5, 9] =
      .error .typeError ∧
    heartRateColumn (fun _ => (0 : ℚ)) 4 [1, 2, 3] [0, 5, 9] =
      .ok (List.replicate 4 none) :=
  discrete_to_continuous_short (fun _ => 0) 4 [1, 2, 3] [0, 5, 9]
    (by decide) (by decide)

/-- Claim C7 is false at the right endpoint: the evaluation grid
`np.arange(0, value_times[-1] - t0, 1)` excludes its upper bound, so the
densified series is not defined at the last input time.  For times
`[0, 1, 2, 3]` the output is indexed by 0, 1, 2 only. -/
theorem discrete_to_continuous_excludes_last :
    discrete_to_continuous (fun _ => (0 : ℚ)) [0, 0, 0, 0] [0, 1, 2, 3] =
      .ok [(0, 0), (1, 0), (2, 0)] ∧
    (∀ p ∈ [((0 : ℤ), (0 : ℚ)), (1, 0), (2, 0)], p.1 ≠ 3) :=
  ⟨rfl, by decide⟩

theorem chain'_lt_head_lt_getLast (t0 : ℤ) (rest : List ℤ) (hne : rest ≠ [])
    (hinc : List.Chain' (· < ·) (t0 :: rest)) :
    t0 < (t0 :: rest).getLast (List.cons_ne_nil t0 rest) := by
  have hpw := List.chain'_iff_pairwise.1 hinc
  rw [List.pairwise_cons] at hpw
  rw [List.getLast_cons hne]
  exact hpw.1 _ (List.getLast_mem hne)

/-- Claim C7 (amended): for a series of at least 4 points with strictly
increasing integer times, the densified series is defined at exactly the
integer indices from the first input time (inclusive) up to, but
excluding, the last input time. -/
theorem discrete_to_continuous_span (splineEval : ℤ → ℚ) (values : List ℚ)
    (t0 : ℤ) (rest : List ℤ)
    (hinc : List.Chain' (· < ·) (t0 :: rest)) (h4 : 4 ≤ (t0 :: rest).length) :
    ∃ s, discrete_to_continuous splineEval values (t0 :: rest) = .ok s ∧
      ∀ i : ℤ, (∃ q, (i, q) ∈ s) ↔
        (t0 ≤ i ∧ i < (t0 :: rest).getLast (List.cons_ne_nil t0 rest)) := by
  have hne : rest ≠ [] := by
    intro h; subst h; simp at h4
  have hlt : t0 < (t0 :: rest).getLast (List.cons_ne_nil t0 rest) :=
    chain'_lt_head_lt_getLast t0 rest hne hinc
  have hok : discrete_to_continuous splineEval values (t0 :: rest) =
      .ok ((List.range
        (((t0 :: rest).getLast (List.cons_ne_nil t0 rest) - t0).toNat)).map
        (fun (x : ℕ) => (t0 + (x : ℤ), splineEval (x : ℤ)))) := by
    simp only [discrete_to_continuous]
    rw [if_neg (by omega)]
  refine ⟨_, hok, ?_⟩
  · intro i
    constructor
    · rintro ⟨q, hq⟩
      obtain ⟨x, hx, hxe⟩ := List.mem_map.1 hq
      have hxlt := List.mem_range.1 hx
      have he1 : t0 + (x : ℤ) = i := congrArg Prod.fst hxe
      have hcast : ((((t0 :: rest).getLast (List.cons_ne_nil t0 rest) -
          t0).toNat : ℤ)) = (t0 :: rest).getLast (List.cons_ne_nil t0 rest)
          - t0 := Int.toNat_of_nonneg (by omega)
      constructor
      · omega
      · have : (x : ℤ) < ((t0 :: rest).getLast (List.cons_ne_nil t0 rest) -
            t0) := by
          rw [← hcast]
          exact_mod_cast hxlt
        omega
    · rintro ⟨hi1, hi2⟩
      refine ⟨splineEval ((i - t0).toNat : ℤ), ?_⟩
      refine List.mem_map.2 ⟨(i - t0).toNat, ?_, ?_⟩
      · refine List.mem_range.2 ?_
        have hcast : (((t0 :: rest).getLast (List.cons_ne_nil t0 rest) -
            t0).toNat : ℤ) = (t0 :: rest).getLast (List.cons_ne_nil t0 rest)
            - t0 := Int.toNat_of_nonneg (by omega)
        have h1 : ((i - t0).toNat : ℤ) = i - t0 :=
          Int.toNat_of_nonneg (by omega)
        omega
      · have h1 : ((i - t0).toNat : ℤ) = i - t0 :=
          Int.toNat_of_nonneg (by omega)
        rw [Prod.mk.injEq]
        exact ⟨by omega, rfl⟩

/-- Witness for `discrete_to_continuous_span`: times `[0, 2, 5, 9]`. -/
theorem discrete_to_continuous_span_inst :
    ∃ s, discrete_to_continuous (fun _ => (0 : ℚ)) [1, 1, 1, 1]
        [0, 2, 5, 9] = .ok s ∧
      ∀ i : ℤ, (∃ q, (i, q) ∈ s) ↔ ((0 : ℤ) ≤ i ∧ i < 9) :=
  discrete_to_continuous_span (fun _ => 0) [1, 1, 1, 1] 0 [2, 5, 9]
    (by simp [List.chain'_cons]) (by decide)

/-! ## Segmenter strategy dispatch in ecg_preprocess

The `segmenter` string selects which external biosppy/neurokit
segmentation routine runs; the final `else` branch runs
`biosppy.ecg.hamilton_segmenter`, exactly like the `"hamilton"` tag. -/

/-- Which segmentation routine a tag selects. -/
inductive SegmenterKind : Type where
  | hamilton : SegmenterKind
  | gamboa : SegmenterKind
  | engzee : SegmenterKind
  | christov : SegmenterKind
  | ssf : SegmenterKind
  | pekkanen : SegmenterKind
deriving DecidableEq

/-- The if/elif/else dispatch on `segmenter` in `ecg_preprocess`. -/
def selectSegmenter (segmenter : String) : SegmenterKind :=
  if segmenter = "hamilton" then .hamilton
  else if segmenter = "gamboa" then .gamboa
  else if segmenter = "engzee" then .engzee
  else if segmenter = "christov" then .christov
  else if segmenter = "ssf" then .ssf
  else if segmenter = "pekkanen" then .pekkanen
  else .hamilton

/-- Claim C4 is false: an unrecognized strategy tag does not fail with
any error; the final `else` branch of `ecg_preprocess` runs the default
hamilton segmenter, indistinguishably from the `"hamilton"` tag. -/
theorem selectSegmenter_unknown_no_error :
    selectSegmenter "wavelet" = SegmenterKind.hamilton ∧
    selectSegmenter "wavelet" = selectSegmenter "hamilton" := by
  decide

/-- Claim C4 (amended): a strategy tag that is not one of the six
recognized names silently falls back to the default hamilton segmenter
rather than failing. -/
theorem selectSegmenter_unknown_fallback (tag : String)
    (h : tag ∉ ["hamilton", "gamboa", "engzee", "christov", "ssf",
      "pekkanen"]) :
    selectSegmenter tag = SegmenterKind.hamilton := by
  simp only [List.mem_cons, List.mem_singleton, not_or] at h
  obtain ⟨h1, h2, h3, h4, h5, h6⟩ := h
  unfold selectSegmenter
  rw [if_neg h1, if_neg h2, if_neg h3, if_neg h4, if_neg h5, if_neg h6.1]

/-- Witness for `selectSegmenter_unknown_fallback`. -/
theorem selectSegmenter_unknown_fallback_inst :
    selectSegmenter "elgendi" = SegmenterKind.hamilton :=
  selectSegmenter_unknown_fallback "elgendi" (by decide)

/-! ## segmenter_pekkanen

The adaptive energy-based beat segmenter.  The SciPy filters
(`scipy.signal.butter` + `filtfilt`, whose coefficients are
transcendental, and `scipy.ndimage.gaussian_filter1d`) are parameters
`lowF`, `highF`, `gaussF`; the irrational scalar functions `np.sqrt`
(inside `np.std`) and `np.log` are parameters `sqrtF`, `logF`.  The rest
— squaring the first difference, the windowed median
threshold/normalizer, zeroing, normalizing, clipping, the bounded
Shannon-like energy, the moving average and the extraction of
positive-to-negative crossings of the first difference — is embedded
directly.

One modelling note: rational division by zero is 0 in Lean, while NumPy
float division by zero yields inf/NaN.  When the median window maximum
`max_power` is 0, the float pipeline turns every power sample into NaN
(from `0/0`) or 1.0 (inf clipped); either way every sample of the
Shannon energy downstream of those is NaN or 0, every comparison with
NaN is False, and the final mask is all-False — exactly as in the
rational model, where everything becomes 0.  The candidate positions are
therefore unaffected.  The float-accurate value-level behaviour of the
threshold/normalize/clip step itself is modelled separately with `FVal`
(below), which represents NaN and ±inf explicitly. -/

/-- `np.max` of a window (NumPy raises on an empty array; windows here
are always of the full window size). -/
def npMax (l : List ℚ) : ℚ :=
  match l with
  | [] => 0
  | x :: xs => xs.foldl max x

/-- Mean of a list (`np.mean`); the empty case (0 here, NaN in NumPy) is
never reached by the claims below. -/
def listMean (l : List ℚ) : ℚ :=
  l.sum / (l.length : ℚ)

/-- Population variance, `np.std` squared. -/
def listVariance (l : List ℚ) : ℚ :=
  ((l.map (fun x => (x - listMean l) * (x - listMean l))).sum) / (l.length : ℚ)

/-- `np.std`, with the square root supplied externally. -/
def npStd (sqrtF : ℚ → ℚ) (l : List ℚ) : ℚ :=
  sqrtF (listVariance l)

/-- `np.median`: middle element of the sorted data, or the mean of the
two middle elements for even length (NaN for the empty array — 0 here,
unreached by the claims below). -/
def npMedian (l : List ℚ) : ℚ :=
  let s := List.insertionSort (· ≤ ·) l
  let m := l.length
  if m % 2 = 1 then s.getD (m / 2) 0
  else (s.getD (m / 2 - 1) 0 + s.getD (m / 2) 0) / 2

/-- The window `decg_power[i*w : (i+1)*w]`. -/
def pekkWindow (l : List ℚ) (w i : ℕ) : List ℚ :=
  (l.drop (i * w)).take w

/-- `np.convolve(a, v)` (full mode): entry `k` is
`sum a[k-i] * v[i]`. -/
def convFull (a v : List ℚ) : List ℚ :=
  (List.range (a.length + v.length - 1)).map (fun k =>
    ((List.range v.length).map (fun i =>
      if i ≤ k then a.getD (k - i) 0 * v.getD i 0 else 0)).sum)

/-- `np.convolve(a, v, mode='same')`: the centered `max(len(a), len(v))`
entries of the full convolution. -/
def convolveSame (a v : List ℚ) : List ℚ :=
  ((convFull a v).drop ((min a.length v.length - 1) / 2)).take
    (max a.length v.length)

/-- `decg_power`: the filtered signal is band-passed (lowpass then
highpass `filtfilt`, external), then `np.diff` and elementwise square. -/
def powerChain (lowF highF : List ℚ → List ℚ) (ecg : List ℚ) : List ℚ :=
  (npDiff (highF (lowF ecg))).map (fun x => x * x)

/-- `window_size = int(window_size * sampling_rate)`. -/
def pekkWsize (window_size sampling_rate : ℚ) : ℕ :=
  (pyInt (window_size * sampling_rate)).toNat

/-- The adaptive threshold: median over the windows of `0.5 * std`.
(The preceding global `0.5*np.std(decg_power)` in the source is a dead
store, immediately overwritten by this median.)  The loop runs for
`int(len(decg_power)/window_size)` windows. -/
def pekkThreshold (sqrtF : ℚ → ℚ) (dp : List ℚ) (w : ℕ) : ℚ :=
  npMedian ((List.range (dp.length / w)).map (fun i =>
    (1 / 2) * npStd sqrtF (pekkWindow dp w i)))

/-- The adaptive normalizer: median over the windows of the maxima. -/
def pekkMaxPower (dp : List ℚ) (w : ℕ) : ℚ :=
  npMedian ((List.range (dp.length / w)).map (fun i =>
    npMax (pekkWindow dp w i)))

/-- A NumPy float value as produced by the normalization step: a number,
NaN, or a signed infinity. -/
inductive FVal : Type where
  | num : ℚ → FVal
  | nan : FVal
  | inf : FVal
  | ninf : FVal
deriving DecidableEq

/-- NumPy float division of `x` by `maxp`: `0/0 = NaN`, `x/0 = ±inf`
for nonzero `x`. -/
def fdiv (x y : ℚ) : FVal :=
  if y = 0 then (if x = 0 then .nan else if 0 < x then .inf else .ninf)
  else .num (x / y)

/-- The clip `decg_power[decg_power > 1.0] = 1.0`: `inf > 1` is true and
becomes 1, while NaN compares false with everything and survives. -/
def fclip1 (v : FVal) : FVal :=
  match v with
  | .num q => if 1 < q then .num 1 else .num q
  | .inf => .num 1
  | .nan => .nan
  | .ninf => .ninf

/-- The thresholding-and-normalization step of `segmenter_pekkanen`
(`decg_power[decg_power < threshold] = 0`, `decg_power /= max_power`,
`decg_power[decg_power > 1.0] = 1.0`) with NumPy float division
semantics. -/
def normStepF (dp : List ℚ) (threshold maxp : ℚ) : List FVal :=
  dp.map (fun x => fclip1 (fdiv (if x < threshold then 0 else x) maxp))

/-- The bounded, denoised energy signal of step 4 of the segmenter, as a
function of the input signal (the two `filtfilt` passes and the square
root are the external parameters). -/
def pekkanenNorm (lowF highF : List ℚ → List ℚ) (sqrtF : ℚ → ℚ)
    (ecg : List ℚ) (sampling_rate window_size : ℚ) : List FVal :=
  normStepF (powerChain lowF highF ecg)
    (pekkThreshold sqrtF (powerChain lowF highF ecg)
      (pekkWsize window_size sampling_rate))
    (pekkMaxPower (powerChain lowF highF ecg)
      (pekkWsize window_size sampling_rate))

/-- The smoothed Shannon-like energy `shannon_energy` after the clamp of
non-positive entries (`shannon_energy[shannon_energy <= 0] = 0`),
computed from the normalized power (rational division; see the note
above). -/
def pekkShannon (lowF highF : List ℚ → List ℚ) (sqrtF logF : ℚ → ℚ)
    (ecg : List ℚ) (sampling_rate window_size : ℚ) : List ℚ :=
  let dp := powerChain lowF highF ecg
  let w := pekkWsize window_size sampling_rate
  let threshold := pekkThreshold sqrtF dp w
  let max_power := pekkMaxPower dp w
  let dp2 := dp.map (fun x => if x < threshold then 0 else x)
  let dp3 := dp2.map (fun x => x / max_power)
  let dp4 := dp3.map (fun x => if 1 < x then 1 else x)
  let square := dp4.map (fun x => x * x)
  let shannon := square.map (fun x => -(x * logF (max x (1 / 1000000))))
  shannon.map (fun x => if x ≤ 0 then 0 else x)

/-- `mean_window_len = int(sampling_rate*0.125 + 1)`. -/
def pekkKernelLen (sampling_rate : ℚ) : ℕ :=
  (pyInt (sampling_rate * (1 / 8) + 1)).toNat

/-- `lp_energy`: the moving average (`np.convolve` in `same` mode with a
uniform kernel) followed by the external Gaussian smoothing. -/
def pekkSmoothed (lowF highF gaussF : List ℚ → List ℚ) (sqrtF logF : ℚ → ℚ)
    (ecg : List ℚ) (sampling_rate window_size : ℚ) : List ℚ :=
  gaussF (convolveSame
    (pekkShannon lowF highF sqrtF logF ecg sampling_rate window_size)
    (List.replicate (pekkKernelLen sampling_rate)
      (1 / (pekkKernelLen sampling_rate : ℚ))))

/-- The crossing mask `(lp_energy_diff[:-1] > 0) &
(lp_energy_diff[1:] < 0)`. -/
def pekkMask (lowF highF gaussF : List ℚ → List ℚ) (sqrtF logF : ℚ → ℚ)
    (ecg : List ℚ) (sampling_rate window_size : ℚ) : List Bool :=
  let d := npDiff
    (pekkSmoothed lowF highF gaussF sqrtF logF ecg sampling_rate window_size)
  List.zipWith (fun x y => if 0 < x ∧ y < 0 then true else false)
    d.dropLast d.tail

/-- `np.flatnonzero` on a boolean mask: the indices of the `true`
entries, in order, starting from `i`. -/
def fnzAux (i : ℕ) : List Bool → List ℕ
  | [] => []
  | b :: rest => if b then i :: fnzAux (i + 1) rest else fnzAux (i + 1) rest

/-- `np.flatnonzero`. -/
def flatnonzero (l : List Bool) : List ℕ :=
  fnzAux 0 l

/-- `segmenter_pekkanen(ecg, sampling_rate, window_size, lfreq, hfreq)`:
the candidate beats are `np.flatnonzero(mask)` shifted back by one
(`rpeaks -= 1`), as NumPy signed integers. -/
def segmenter_pekkanen (lowF highF gaussF : List ℚ → List ℚ)
    (sqrtF logF : ℚ → ℚ) (ecg : List ℚ)
    (sampling_rate window_size : ℚ) : List ℤ :=
  (flatnonzero
    (pekkMask lowF highF gaussF sqrtF logF ecg sampling_rate
      window_size)).map (fun (i : ℕ) => (i : ℤ) - 1)

theorem convolveSame_length_le (a v : List ℚ) :
    (convolveSame a v).length ≤ max a.length v.length := by
  unfold convolveSame
  rw [List.length_take]
  exact min_le_left _ _

theorem pekkShannon_length (lowF highF : List ℚ → List ℚ)
    (sqrtF logF : ℚ → ℚ) (ecg : List ℚ) (sampling_rate window_size : ℚ)
    (hlow : ∀ l, (lowF l).length = l.length)
    (hhigh : ∀ l, (highF l).length = l.length) :
    (pekkShannon lowF highF sqrtF logF ecg sampling_rate
      window_size).length = ecg.length - 1 := by
  simp [pekkShannon, powerChain, npDiff, List.length_zipWith, hlow, hhigh]

theorem pekkMask_length_le (lowF highF gaussF : List ℚ → List ℚ)
    (sqrtF logF : ℚ → ℚ) (ecg : List ℚ) (sampling_rate window_size : ℚ)
    (hlow : ∀ l, (lowF l).length = l.length)
    (hhigh : ∀ l, (highF l).length = l.length)
    (hg : ∀ l, (gaussF l).length = l.length) :
    (pekkMask lowF highF gaussF sqrtF logF ecg sampling_rate
      window_size).length ≤
      max (ecg.length - 1) (pekkKernelLen sampling_rate) := by
  have h1 : (pekkMask lowF highF gaussF sqrtF logF ecg sampling_rate
      window_size).length ≤
      (pekkSmoothed lowF highF gaussF sqrtF logF ecg sampling_rate
        window_size).length := by
    simp only [pekkMask, List.length_zipWith, npDiff, List.length_dropLast,
      List.length_tail]
    omega
  have h2 : (pekkSmoothed lowF highF gaussF sqrtF logF ecg sampling_rate
      window_size).length ≤
      max (ecg.length - 1) (pekkKernelLen sampling_rate) := by
    rw [pekkSmoothed, hg]
    refine le_trans (convolveSame_length_le _ _) ?_
    rw [pekkShannon_length lowF highF sqrtF logF ecg sampling_rate
      window_size hlow hhigh]
    simp
  omega

theorem fnzAux_mem (l : List Bool) (i : ℕ) :
    ∀ x ∈ fnzAux i l, i ≤ x ∧ x < i + l.length := by
  induction l generalizing i with
  | nil => intro x hx; simp [fnzAux] at hx
  | cons b rest ih =>
    intro x hx
    cases b with
    | false =>
      rw [fnzAux, if_neg (by simp)] at hx
      obtain ⟨h1, h2⟩ := ih (i + 1) x hx
      refine ⟨by omega, ?_⟩
      simp only [List.length_cons]
      omega
    | true =>
      rw [fnzAux, if_pos rfl] at hx
      rcases List.mem_cons.1 hx with rfl | hmem
      · exact ⟨le_refl x, by simp⟩
      · obtain ⟨h1, h2⟩ := ih (i + 1) x hmem
        refine ⟨by omega, ?_⟩
        simp only [List.length_cons]
        omega

theorem fnzAux_chain (l : List Bool) (i : ℕ) :
    List.Chain' (· < ·) (fnzAux i l) := by
  induction l generalizing i with
  | nil => exact List.chain'_nil
  | cons b rest ih =>
    cases b with
    | false =>
      rw [fnzAux, if_neg (by simp)]
      exact ih (i + 1)
    | true =>
      rw [fnzAux, if_pos rfl]
      refine List.chain'_cons'.2 ⟨?_, ih (i + 1)⟩
      intro y hy
      have hmem : y ∈ fnzAux (i + 1) rest := List.mem_of_mem_head? hy
      have := fnzAux_mem rest (i + 1) y hmem
      omega

/-- Claim C3 (amended): the adaptive segmenter's candidate list is
strictly ascending and every candidate is below the signal length
(provided the external filters and the Gaussian smoother preserve
length and the moving-average kernel is no longer than the
differentiated signal), but candidates are bounded below only by −1:
the final `rpeaks -= 1` maps a crossing at mask position 0 to the
invalid index −1. -/
theorem segmenter_pekkanen_bounds (lowF highF gaussF : List ℚ → List ℚ)
    (sqrtF logF : ℚ → ℚ) (ecg : List ℚ) (sampling_rate window_size : ℚ)
    (hlow : ∀ l, (lowF l).length = l.length)
    (hhigh : ∀ l, (highF l).length = l.length)
    (hg : ∀ l, (gaussF l).length = l.length)
    (hmwl : pekkKernelLen sampling_rate ≤ ecg.length - 1) :
    List.Chain' (· < ·)
      (segmenter_pekkanen lowF highF gaussF sqrtF logF ecg sampling_rate
        window_size) ∧
    ∀ r ∈ segmenter_pekkanen lowF highF gaussF sqrtF logF ecg sampling_rate
        window_size, -1 ≤ r ∧ r < (ecg.length : ℤ) := by
  constructor
  · unfold segmenter_pekkanen
    rw [List.chain'_map]
    exact (fnzAux_chain _ 0).imp (fun a b h => by omega)
  · intro r hr
    unfold segmenter_pekkanen at hr
    obtain ⟨x, hx, rfl⟩ := List.mem_map.1 hr
    obtain ⟨hx1, hx2⟩ := fnzAux_mem _ 0 x hx
    have hmask := pekkMask_length_le lowF highF gaussF sqrtF logF ecg
      sampling_rate window_size hlow hhigh hg
    have hmax : max (ecg.length - 1) (pekkKernelLen sampling_rate) =
        ecg.length - 1 := Nat.max_eq_left hmwl
    constructor
    · omega
    · have hxn : x ≤ ecg.length := by omega
      omega

/-- Claim C3 is false on its "no returned index is negative" part: with
identity instantiations of the external smoothing stages, the 11-sample
signal below at sampling rate 1 produces a smoothed-energy maximum at
position 1, the crossing mask fires at position 0, and `rpeaks -= 1`
returns exactly `[-1]`. -/
theorem segmenter_pekkanen_negative_index :
    segmenter_pekkanen (fun l => l) (fun l => l) (fun l => l) (fun q => q)
      (fun _ => -1) [0, 0, 3, 1, 1, 0, 0, 0, 0, 0, 0] 1 5 = [-1] ∧
    ¬ (0 : ℤ) ≤ -1 := by decide

/-- Witness for `segmenter_pekkanen_bounds`. -/
theorem segmenter_pekkanen_bounds_inst :
    List.Chain' (· < ·)
      (segmenter_pekkanen (fun l => l) (fun l => l) (fun l => l)
        (fun q => q) (fun _ => -1) [0, 0, 3, 1, 1, 0, 0, 0, 0, 0, 0] 1 5) ∧
    ∀ r ∈ segmenter_pekkanen (fun l => l) (fun l => l) (fun l => l)
        (fun q => q) (fun _ => -1) [0, 0, 3, 1, 1, 0, 0, 0, 0, 0, 0] 1 5,
      -1 ≤ r ∧ r < (([0, 0, 3, 1, 1, 0, 0, 0, 0, 0, 0] : List ℚ).length : ℤ) :=
  segmenter_pekkanen_bounds (fun l => l) (fun l => l) (fun l => l)
    (fun q => q) (fun _ => -1) [0, 0, 3, 1, 1, 0, 0, 0, 0, 0, 0] 1 5
    (fun _ => rfl) (fun _ => rfl) (fun _ => rfl) (by decide)

/-- Claim C6 is false for an input whose band-passed derivative power is
identically zero — for instance the all-zero signal, which the linear
SciPy filters map to exactly zero (so the identity instantiation of the
external filters is exact on this input): the median window maximum is
then 0, the division is `0/0`, and every sample of the "bounded energy
signal" is NaN, not a value in `[0, 1]`. -/
theorem pekkanenNorm_zero_signal_nan :
    pekkanenNorm (fun l => l) (fun l => l) (fun q => q)
      (List.replicate 12 0) 1 5 = List.replicate 11 FVal.nan ∧
    (∀ q : ℚ, FVal.nan ≠ FVal.num q) :=
  ⟨by decide, fun q h => FVal.noConfusion h⟩

theorem fdiv_of_ne (x y : ℚ) (h : y ≠ 0) : fdiv x y = FVal.num (x / y) := by
  unfold fdiv
  rw [if_neg h]

theorem fclip1_num (q : ℚ) :
    fclip1 (FVal.num q) = if 1 < q then FVal.num 1 else FVal.num q := rfl

/-- Claim C6 (amended): whenever the median per-window maximum of the
power signal is positive, every sample of the thresholded, normalized
and clipped energy signal is a number in the closed interval
`[0, 1]`. -/
theorem pekkanenNorm_bounded (lowF highF : List ℚ → List ℚ)
    (sqrtF : ℚ → ℚ) (ecg : List ℚ) (sampling_rate window_size : ℚ)
    (hpos : 0 < pekkMaxPower (powerChain lowF highF ecg)
      (pekkWsize window_size sampling_rate)) :
    ∀ v ∈ pekkanenNorm lowF highF sqrtF ecg sampling_rate window_size,
      ∃ q : ℚ, v = FVal.num q ∧ 0 ≤ q ∧ q ≤ 1 := by
  intro v hv
  unfold pekkanenNorm normStepF at hv
  obtain ⟨x, hx, rfl⟩ := List.mem_map.1 hv
  have hx0 : 0 ≤ x := by
    unfold powerChain at hx
    obtain ⟨y, _, rfl⟩ := List.mem_map.1 hx
    exact mul_self_nonneg y
  have hz0 : 0 ≤ (if x < pekkThreshold sqrtF (powerChain lowF highF ecg)
      (pekkWsize window_size sampling_rate) then 0 else x) := by
    split
    · exact le_refl 0
    · exact hx0
  rw [fdiv_of_ne _ _ (ne_of_gt hpos)]
  have hq0 : 0 ≤ (if x < pekkThreshold sqrtF (powerChain lowF highF ecg)
      (pekkWsize window_size sampling_rate) then 0 else x) /
      pekkMaxPower (powerChain lowF highF ecg)
        (pekkWsize window_size sampling_rate) :=
    div_nonneg hz0 (le_of_lt hpos)
  rw [fclip1_num]
  by_cases h1 : 1 < (if x < pekkThreshold sqrtF (powerChain lowF highF ecg)
      (pekkWsize window_size sampling_rate) then 0 else x) /
      pekkMaxPower (powerChain lowF highF ecg)
        (pekkWsize window_size sampling_rate)
  · rw [if_pos h1]
    exact ⟨1, rfl, by norm_num, le_refl 1⟩
  · rw [if_neg h1]
    exact ⟨_, rfl, hq0, le_of_not_lt h1⟩

/-- Witness for `pekkanenNorm_bounded`: the median window maximum of the
signal below is 9/2 > 0. -/
theorem pekkanenNorm_bounded_inst :
    0 < pekkMaxPower
      (powerChain (fun l => l) (fun l => l) [0, 0, 3, 1, 1, 0, 0, 0, 0, 0, 0])
      (pekkWsize 5 1) ∧
    (∀ v ∈ pekkanenNorm (fun l => l) (fun l => l) (fun q => q)
        [0, 0, 3, 1, 1, 0, 0, 0, 0, 0, 0] 1 5,
      ∃ q : ℚ, v = FVal.num q ∧ 0 ≤ q ∧ q ≤ 1) :=
  ⟨by decide, pekkanenNorm_bounded (fun l => l) (fun l => l) (fun q => q)
    [0, 0, 3, 1, 1, 0, 0, 0, 0, 0, 0] 1 5 (by decide)⟩
